import Mathlib

/-!
Verification of the text-chunking utilities of the `gpt-embeddings`
repository (`src/utils.py`).

Python strings are modelled as `List Char`; Python's `str.split(sep)` and
`sep.join(parts)` are modelled by `pySplit` and `pyJoin` below.  Tokenizers
(the external `tiktoken` dependency) are modelled by an abstract `Tokenizer`
structure exposing `encode`/`decode`; `num_tokens` is the length of the
encoding, as in the source.
-/

namespace GptEmbeddings

/-- Python strings are modelled as lists of characters. -/
abbrev Str := List Char

/-- Model of an external tokenizer (the `tiktoken` encoding chosen by the
model identifier): `encode` maps text to a token sequence, `decode` maps a
token sequence back to text. -/
structure Tokenizer (τ : Type) where
  encode : Str → List τ
  decode : List τ → Str

/-- `num_tokens` from `src/utils.py`: the number of tokens in a string,
i.e. the length of its encoding. -/
def num_tokens (T : Tokenizer τ) (text : Str) : Nat :=
  (T.encode text).length

/-- The character-level tokenizer (one token per character), used to
instantiate the abstract tokenizer on concrete inputs. -/
def charTokenizer : Tokenizer Char where
  encode := id
  decode := id

/-- Locate the first occurrence of `sep` in `s`: returns
`some (before, after)` with `s = before ++ sep ++ after`, or `none` if
`sep` does not occur.  (Helper for modelling Python `str.split`.) -/
def splitFirst (sep : Str) : Str → Option (Str × Str)
  | [] => none
  | c :: rest =>
    if sep.isPrefixOf (c :: rest) then
      some ([], (c :: rest).drop sep.length)
    else
      match splitFirst sep rest with
      | some (l, r) => some (c :: l, r)
      | none => none

theorem splitFirst_eq_append {sep : Str} :
    ∀ {s l r : Str}, splitFirst sep s = some (l, r) → s = l ++ sep ++ r := by
  intro s
  induction s with
  | nil => intro l r h; simp [splitFirst] at h
  | cons c rest ih =>
    intro l r h
    by_cases hp : sep.isPrefixOf (c :: rest)
    · rw [splitFirst, if_pos hp] at h
      obtain ⟨t, ht⟩ := (List.isPrefixOf_iff_prefix.mp hp)
      obtain ⟨rfl, rfl⟩ := Prod.mk.injEq .. ▸ (Option.some.injEq .. ▸ h)
      simp [← ht]
    · rw [splitFirst, if_neg hp] at h
      cases hrec : splitFirst sep rest with
      | none => rw [hrec] at h; exact absurd h (by simp)
      | some p =>
        obtain ⟨l', r'⟩ := p
        rw [hrec] at h
        obtain ⟨rfl, rfl⟩ := Prod.mk.injEq .. ▸ (Option.some.injEq .. ▸ h)
        simp [ih hrec]

theorem splitFirst_length_lt {sep : Str} (hsep : sep ≠ []) {s l r : Str}
    (h : splitFirst sep s = some (l, r)) : r.length < s.length := by
  have := splitFirst_eq_append h
  subst this
  have : 1 ≤ sep.length := List.length_pos.mpr hsep
  simp only [List.length_append]
  omega

/-- Fuel-indexed worker for `pySplit`; the fuel only serves to make the
recursion structural (it strictly exceeds the length of `s` at every call). -/
def pySplitAux (sep : Str) : Nat → Str → List Str
  | 0, s => [s]
  | fuel + 1, s =>
    match splitFirst sep s with
    | none => [s]
    | some (l, r) =>
      if r.length < s.length then l :: pySplitAux sep fuel r else [s]

/-- Model of Python `string.split(sep)` for a non-empty separator `sep`:
the list of fragments of `s` between consecutive occurrences of `sep`. -/
def pySplit (sep s : Str) : List Str :=
  pySplitAux sep (s.length + 1) s

theorem pySplitAux_fuel_irrel (sep : Str) :
    ∀ f₁ f₂ (s : Str), s.length < f₁ → s.length < f₂ →
      pySplitAux sep f₁ s = pySplitAux sep f₂ s := by
  intro f₁
  induction f₁ with
  | zero => intro f₂ s h₁; omega
  | succ f ih =>
    intro f₂ s h₁ h₂
    cases f₂ with
    | zero => omega
    | succ f' =>
      simp only [pySplitAux]
      cases hsf : splitFirst sep s with
      | none => rfl
      | some p =>
        obtain ⟨l, r⟩ := p
        show (if r.length < s.length then l :: pySplitAux sep f r else [s])
            = (if r.length < s.length then l :: pySplitAux sep f' r else [s])
        by_cases hr : r.length < s.length
        · rw [if_pos hr, if_pos hr, ih f' r (by omega) (by omega)]
        · rw [if_neg hr, if_neg hr]

theorem pySplit_eq_none {sep s : Str} (h : splitFirst sep s = none) :
    pySplit sep s = [s] := by
  simp [pySplit, pySplitAux, h]

theorem pySplit_eq_cons {sep : Str} (hsep : sep ≠ []) {s l r : Str}
    (h : splitFirst sep s = some (l, r)) :
    pySplit sep s = l :: pySplit sep r := by
  have hlt := splitFirst_length_lt hsep h
  show pySplitAux sep (s.length + 1) s = l :: pySplitAux sep (r.length + 1) r
  rw [pySplitAux, h]
  show (if r.length < s.length then l :: pySplitAux sep s.length r else [s]) = _
  rw [if_pos hlt]
  exact congrArg (l :: ·) (pySplitAux_fuel_irrel sep s.length (r.length + 1) r hlt (by omega))

theorem pySplit_ne_nil (sep s : Str) : pySplit sep s ≠ [] := by
  unfold pySplit
  cases hsf : splitFirst sep s with
  | none => simp [pySplitAux, hsf]
  | some p =>
    obtain ⟨l, r⟩ := p
    by_cases hr : r.length < s.length <;>
      simp [pySplitAux, hsf, hr]

/-- Model of Python `sep.join(parts)`. -/
def pyJoin (sep : Str) : List Str → Str
  | [] => []
  | [x] => x
  | x :: y :: rest => x ++ sep ++ pyJoin sep (y :: rest)

theorem pyJoin_cons (sep x : Str) {xs : List Str} (h : xs ≠ []) :
    pyJoin sep (x :: xs) = x ++ sep ++ pyJoin sep xs := by
  cases xs with
  | nil => exact absurd rfl h
  | cons y rest => rfl

theorem pyJoin_pySplit {sep : Str} (hsep : sep ≠ []) (s : Str) :
    pyJoin sep (pySplit sep s) = s := by
  have H : ∀ n (s : Str), s.length ≤ n → pyJoin sep (pySplit sep s) = s := by
    intro n
    induction n with
    | zero =>
      intro s hs
      have : s = [] := List.length_eq_zero.mp (by omega)
      subst this
      rw [pySplit_eq_none (s := ([] : Str)) rfl]
      rfl
    | succ n ih =>
      intro s hs
      cases hsf : splitFirst sep s with
      | none => rw [pySplit_eq_none hsf]; rfl
      | some p =>
        obtain ⟨l, r⟩ := p
        have hlt := splitFirst_length_lt hsep hsf
        rw [pySplit_eq_cons hsep hsf,
          pyJoin_cons sep l (pySplit_ne_nil sep r),
          ih r (by omega)]
        exact (splitFirst_eq_append hsf).symm
  exact H s.length s (le_refl _)

theorem pyJoin_take_drop (sep : Str) :
    ∀ (xs : List Str) (i : Nat), 1 ≤ i → i < xs.length →
      pyJoin sep (xs.take i) ++ sep ++ pyJoin sep (xs.drop i) = pyJoin sep xs := by
  intro xs
  induction xs with
  | nil => intro i h1 h2; simp at h2
  | cons x xs ih =>
    intro i h1 h2
    cases i with
    | zero => omega
    | succ i =>
      have hxs : xs ≠ [] := by
        intro hnil; subst hnil
        simp only [List.length_cons, List.length_nil] at h2
        omega
      cases i with
      | zero =>
        show pyJoin sep [x] ++ sep ++ pyJoin sep xs = pyJoin sep (x :: xs)
        rw [pyJoin_cons sep x hxs]
        rfl
      | succ i =>
        have hxs2 : i + 1 < xs.length := by
          simp only [List.length_cons] at h2
          omega
        show pyJoin sep (x :: xs.take (i + 1)) ++ sep ++ pyJoin sep (xs.drop (i + 1))
            = pyJoin sep (x :: xs)
        rw [pyJoin_cons sep x (by
            intro hnil
            have := congrArg List.length hnil
            simp only [List.length_take, List.length_nil] at this
            omega),
          pyJoin_cons sep x hxs]
        have := ih (i + 1) (by omega) hxs2
        simp only [List.append_assoc] at this ⊢
        rw [this]

/-! ## Balanced Splitter: `halved_by_delimiter` -/

/-- The `for i, chunk in enumerate(chunks)` loop of `halved_by_delimiter`:
walks the list of per-prefix differences `ds` carrying the loop counter `i`
and the current `best_diff`; breaks at the first difference that is not a
strict improvement, and otherwise falls off the loop at the last index. -/
def scanStop : List Nat → Nat → Nat → Nat
  | [], _, i => i - 1
  | d :: ds, best, i => if best ≤ d then i else scanStop ds d (i + 1)

/-- The list of differences `abs(halfway - num_tokens(delimiter.join(chunks[: i + 1])))`
examined by the scan loop of `halved_by_delimiter`, one per index of `chunks`. -/
def halvedDiffs (T : Tokenizer τ) (delimiter : Str) (chunks : List Str)
    (halfway : Nat) : List Nat :=
  (List.range chunks.length).map
    (fun j => Nat.dist halfway (num_tokens T (pyJoin delimiter (chunks.take (j + 1)))))

/-- The index at which the scan loop of `halved_by_delimiter` stops
(the value of `i` after the `for` loop). -/
def scanIdx (T : Tokenizer τ) (string delimiter : Str) : Nat :=
  scanStop (halvedDiffs T delimiter (pySplit delimiter string) (num_tokens T string / 2))
    (num_tokens T string / 2) 0

/-- `halved_by_delimiter` from `src/utils.py`: split a string in two on a
delimiter, trying to balance tokens on each side. -/
def halved_by_delimiter (T : Tokenizer τ) (string : Str) (delimiter : Str) : Str × Str :=
  if (pySplit delimiter string).length = 1 then
    (string, [])
  else if (pySplit delimiter string).length = 2 then
    ((pySplit delimiter string).headD [], (pySplit delimiter string).getD 1 [])
  else
    (pyJoin delimiter ((pySplit delimiter string).take (scanIdx T string delimiter)),
      pyJoin delimiter ((pySplit delimiter string).drop (scanIdx T string delimiter)))

/-- The value of `best_diff` after the first `j` loop iterations: the minimum
of the initial value and of the differences seen so far. -/
def bestBefore (best : Nat) (ds : List Nat) (j : Nat) : Nat :=
  (ds.take j).foldl min best

theorem bestBefore_cons_succ {d best : Nat} (ds : List Nat) (j : Nat) (h : d < best) :
    bestBefore best (d :: ds) (j + 1) = bestBefore d ds j := by
  simp only [bestBefore, List.take_succ_cons, List.foldl_cons]
  rw [min_eq_right (le_of_lt h)]

theorem scanStop_spec :
    ∀ (ds : List Nat) (best i : Nat), ds ≠ [] →
      i ≤ scanStop ds best i ∧ scanStop ds best i - i < ds.length ∧
      (∀ j, j < scanStop ds best i - i → ds.getD j 0 < bestBefore best ds j) ∧
      (bestBefore best ds (scanStop ds best i - i) ≤ ds.getD (scanStop ds best i - i) 0 ∨
        scanStop ds best i - i = ds.length - 1) := by
  intro ds
  induction ds with
  | nil => intro best i h; exact absurd rfl h
  | cons d rest ih =>
    intro best i _
    by_cases hbd : best ≤ d
    · rw [scanStop, if_pos hbd]
      refine ⟨le_refl i, by simp, fun j hj => absurd hj (by omega), Or.inl ?_⟩
      simpa [bestBefore] using hbd
    · rw [scanStop, if_neg hbd]
      have hd : d < best := by omega
      cases rest with
      | nil =>
        simp only [scanStop]
        refine ⟨by omega, by simp only [List.length_cons, List.length_nil]; omega,
          fun j hj => absurd hj (by omega),
          Or.inr (by simp only [List.length_cons, List.length_nil]; omega)⟩
      | cons d' rest' =>
        obtain ⟨h1, h2, h3, h4⟩ := ih d (i + 1) (by simp)
        set k := scanStop (d' :: rest') d (i + 1) with hk
        have hki : k - i = (k - (i + 1)) + 1 := by omega
        refine ⟨by omega, ?_, ?_, ?_⟩
        · simp only [List.length_cons] at h2 ⊢
          omega
        · intro j hj
          rw [hki] at hj
          cases j with
          | zero => simpa [bestBefore] using hd
          | succ j' =>
            rw [List.getD_cons_succ, bestBefore_cons_succ _ _ hd]
            exact h3 j' (by omega)
        · rw [hki, List.getD_cons_succ, bestBefore_cons_succ _ _ hd]
          rcases h4 with h4 | h4
          · exact Or.inl h4
          · refine Or.inr ?_
            simp only [List.length_cons] at *
            omega

theorem halvedDiffs_length (T : Tokenizer τ) (delimiter : Str) (chunks : List Str)
    (halfway : Nat) : (halvedDiffs T delimiter chunks halfway).length = chunks.length := by
  simp [halvedDiffs]

theorem halvedDiffs_getD (T : Tokenizer τ) (delimiter : Str) (chunks : List Str)
    (halfway : Nat) {j : Nat} (hj : j < chunks.length) :
    (halvedDiffs T delimiter chunks halfway).getD j 0 =
      Nat.dist halfway (num_tokens T (pyJoin delimiter (chunks.take (j + 1)))) := by
  rw [List.getD_eq_getElem?_getD, halvedDiffs, List.getElem?_map,
    List.getElem?_range hj]
  rfl

theorem bestBefore_halvedDiffs (T : Tokenizer τ) (delimiter : Str) (chunks : List Str)
    (halfway : Nat) {j : Nat} (hj : j ≤ chunks.length) :
    bestBefore halfway (halvedDiffs T delimiter chunks halfway) j =
      ((List.range j).map
        (fun m => Nat.dist halfway (num_tokens T (pyJoin delimiter (chunks.take (m + 1)))))).foldl
        min halfway := by
  rw [bestBefore, halvedDiffs, ← List.map_take, List.take_range, min_eq_left hj]

theorem halvedDiffs_ne_nil (T : Tokenizer τ) (delimiter string : Str) (halfway : Nat) :
    halvedDiffs T delimiter (pySplit delimiter string) halfway ≠ [] := by
  intro hnil
  have hlen := halvedDiffs_length T delimiter (pySplit delimiter string) halfway
  rw [hnil] at hlen
  exact pySplit_ne_nil delimiter string
    (List.length_eq_zero.mp hlen.symm)

theorem scanIdx_lt_length (T : Tokenizer τ) (string delimiter : Str) :
    scanIdx T string delimiter < (pySplit delimiter string).length := by
  obtain ⟨-, hklt, -, -⟩ := scanStop_spec
    (halvedDiffs T delimiter (pySplit delimiter string) (num_tokens T string / 2))
    (num_tokens T string / 2) 0
    (halvedDiffs_ne_nil T delimiter string (num_tokens T string / 2))
  rw [halvedDiffs_length] at hklt
  simpa [scanIdx] using hklt

theorem pySplit_length_ge_two {delimiter string : Str} (hd : delimiter ≠ [])
    (hocc : splitFirst delimiter string ≠ none) :
    2 ≤ (pySplit delimiter string).length := by
  cases hsf : splitFirst delimiter string with
  | none => exact absurd hsf hocc
  | some p =>
    obtain ⟨l', r'⟩ := p
    rw [pySplit_eq_cons hd hsf]
    have hpos : 1 ≤ (pySplit delimiter r').length :=
      List.length_pos.mpr (pySplit_ne_nil delimiter r')
    simp only [List.length_cons]
    omega

theorem pySplit_eq_pair {delimiter string : Str}
    (h2 : (pySplit delimiter string).length = 2) :
    ∃ a b, pySplit delimiter string = [a, b] := by
  match hab : pySplit delimiter string, h2 with
  | [a, b], _ => exact ⟨a, b, rfl⟩

/-- The two halves always recombine to the original string, except in the
delimiter-absent case (where the pair is `(string, "")`) and in the case
where the scan stops at the very first prefix (where it is `("", string)`). -/
theorem halved_by_delimiter_append (T : Tokenizer τ) {string delimiter l r : Str}
    (hd : delimiter ≠ []) (h : halved_by_delimiter T string delimiter = (l, r)) :
    l ++ delimiter ++ r = string ∨
      ((pySplit delimiter string).length = 1 ∧ l = string ∧ r = []) ∨
      (l = [] ∧ r = string) := by
  rw [halved_by_delimiter] at h
  by_cases h1 : (pySplit delimiter string).length = 1
  · rw [if_pos h1] at h
    exact Or.inr (Or.inl ⟨h1, (Prod.mk.injEq .. ▸ h).1.symm, (Prod.mk.injEq .. ▸ h).2.symm⟩)
  · rw [if_neg h1] at h
    by_cases h2 : (pySplit delimiter string).length = 2
    · rw [if_pos h2] at h
      obtain ⟨a, b, hab⟩ := pySplit_eq_pair h2
      rw [hab] at h
      simp only [List.headD_cons, List.getD_cons_succ, List.getD_cons_zero] at h
      obtain ⟨rfl, rfl⟩ := Prod.mk.injEq .. ▸ h
      refine Or.inl ?_
      have := pyJoin_pySplit hd string
      rw [hab] at this
      simpa [pyJoin] using this
    · rw [if_neg h2] at h
      have hklt := scanIdx_lt_length T string delimiter
      obtain ⟨rfl, rfl⟩ := Prod.mk.injEq .. ▸ h
      by_cases hiz : scanIdx T string delimiter = 0
      · rw [hiz]
        exact Or.inr (Or.inr ⟨rfl, by rw [List.drop_zero]; exact pyJoin_pySplit hd string⟩)
      · refine Or.inl ?_
        rw [pyJoin_take_drop delimiter (pySplit delimiter string) _ (by omega) hklt]
        exact pyJoin_pySplit hd string

/-! ## Recursive Chunker -/

/-- `truncated_string` from `src/utils.py`: truncate a string to a maximum
number of tokens by encoding it, keeping only the first `max_tokens` token
ids, and decoding back to text.  (The `print_warning` side effect is a log
message only and is elided.) -/
def truncated_string (T : Tokenizer τ) (string : Str) (max_tokens : Nat) : Str :=
  T.decode ((T.encode string).take max_tokens)

/-- The paragraph separator `"\n\n"` used to join titles and body text. -/
def parSep : Str := ['\n', '\n']

/-- The delimiter hierarchy tried by `split_strings_from_subsection`:
paragraph `"\n\n"`, then line `"\n"`, then sentence `". "`. -/
def delimiters : List Str := [['\n', '\n'], ['\n'], ['.', ' ']]

/-- The `for delimiter in ["\n\n", "\n", ". "]` loop of
`split_strings_from_subsection`: the first delimiter (with its two halves)
for which `halved_by_delimiter` yields two non-empty halves, or `none`
when every delimiter fails. -/
def findSplit (T : Tokenizer τ) (text : Str) : List Str → Option (Str × Str × Str)
  | [] => none
  | d :: ds =>
    if (halved_by_delimiter T text d).1 = [] ∨ (halved_by_delimiter T text d).2 = [] then
      findSplit T text ds
    else
      some (d, (halved_by_delimiter T text d).1, (halved_by_delimiter T text d).2)

/-- `split_strings_from_subsection` from `src/utils.py`: split a subsection
(a pair of parent titles and text) into a list of strings, each with no more
than `max_tokens` tokens, recursing through the delimiter hierarchy and
falling back to truncation when the recursion budget is exhausted or no
usable split exists. -/
def split_strings_from_subsection (T : Tokenizer τ) (subsection : List Str × Str)
    (max_tokens : Nat) (max_recursion : Nat) : List Str :=
  if num_tokens T (pyJoin parSep (subsection.1 ++ [subsection.2])) ≤ max_tokens then
    [pyJoin parSep (subsection.1 ++ [subsection.2])]
  else
    match max_recursion with
    | 0 =>
      [truncated_string T (pyJoin parSep (subsection.1 ++ [subsection.2])) max_tokens]
    | mr + 1 =>
      match findSplit T subsection.2 delimiters with
      | some (_, left, right) =>
        split_strings_from_subsection T (subsection.1, left) max_tokens mr ++
          split_strings_from_subsection T (subsection.1, right) max_tokens mr
      | none =>
        [truncated_string T (pyJoin parSep (subsection.1 ++ [subsection.2])) max_tokens]

/-- Instrumented form of `split_strings_from_subsection` that tags each
returned chunk with `none` for a chunk returned by the base case (it fits
the budget) and `some orig` for a chunk produced by the truncation fallback
applied to the oversized string `orig`. -/
def split_strings_tagged (T : Tokenizer τ) (subsection : List Str × Str)
    (max_tokens : Nat) (max_recursion : Nat) : List (Str × Option Str) :=
  if num_tokens T (pyJoin parSep (subsection.1 ++ [subsection.2])) ≤ max_tokens then
    [(pyJoin parSep (subsection.1 ++ [subsection.2]), none)]
  else
    match max_recursion with
    | 0 =>
      [(truncated_string T (pyJoin parSep (subsection.1 ++ [subsection.2])) max_tokens,
        some (pyJoin parSep (subsection.1 ++ [subsection.2])))]
    | mr + 1 =>
      match findSplit T subsection.2 delimiters with
      | some (_, left, right) =>
        split_strings_tagged T (subsection.1, left) max_tokens mr ++
          split_strings_tagged T (subsection.1, right) max_tokens mr
      | none =>
        [(truncated_string T (pyJoin parSep (subsection.1 ++ [subsection.2])) max_tokens,
          some (pyJoin parSep (subsection.1 ++ [subsection.2])))]

/-- Combine the fragment lists of the two recursive halves, recording the
delimiter `d` consumed between them; propagates failure (`none`). -/
def glueParts (d : Str) :
    Option (List Str × List Str) → Option (List Str × List Str) →
      Option (List Str × List Str)
  | some (ps₁, ds₁), some (ps₂, ds₂) => some (ps₁ ++ ps₂, ds₁ ++ d :: ds₂)
  | _, _ => none

/-- Instrumented form of `split_strings_from_subsection` that, on the purely
non-truncating path, returns the body fragments of the produced chunks
together with the delimiter consumed at each split; returns `none` as soon
as any call hits the recursion floor or the no-usable-split fallback. -/
def split_parts (T : Tokenizer τ) (titles : List Str) (text : Str)
    (max_tokens : Nat) (max_recursion : Nat) : Option (List Str × List Str) :=
  if num_tokens T (pyJoin parSep (titles ++ [text])) ≤ max_tokens then
    some ([text], [])
  else
    match max_recursion with
    | 0 => none
    | mr + 1 =>
      match findSplit T text delimiters with
      | some (d, left, right) =>
        glueParts d (split_parts T titles left max_tokens mr)
          (split_parts T titles right max_tokens mr)
      | none => none

/-- Interleave body fragments with the delimiters consumed between them
(`interleave [p₁, …, pₙ] [d₁, …, dₙ₋₁] = p₁ ++ d₁ ++ p₂ ++ … ++ pₙ`). -/
def interleave : List Str → List Str → Str
  | [], _ => []
  | p :: _, [] => p
  | p :: ps, d :: ds => p ++ d ++ interleave ps ds

theorem delimiters_ne_nil : ∀ d ∈ delimiters, d ≠ [] := by decide

theorem findSplit_sound (T : Tokenizer τ) (text : Str) :
    ∀ (ds : List Str) {d l r : Str}, findSplit T text ds = some (d, l, r) →
      d ∈ ds ∧ halved_by_delimiter T text d = (l, r) ∧ l ≠ [] ∧ r ≠ [] := by
  intro ds
  induction ds with
  | nil => intro d l r h; simp [findSplit] at h
  | cons d0 ds ih =>
    intro d l r h
    rw [findSplit] at h
    by_cases hc : (halved_by_delimiter T text d0).1 = [] ∨ (halved_by_delimiter T text d0).2 = []
    · rw [if_pos hc] at h
      obtain ⟨hmem, hrest⟩ := ih h
      exact ⟨List.mem_cons_of_mem _ hmem, hrest⟩
    · rw [if_neg hc] at h
      push_neg at hc
      simp only [Option.some.injEq, Prod.mk.injEq] at h
      obtain ⟨rfl, rfl, rfl⟩ := h
      exact ⟨List.mem_cons_self _ _, Prod.mk.eta, hc.1, hc.2⟩

theorem num_tokens_truncated (T : Tokenizer τ) (hT : ∀ ts, T.encode (T.decode ts) = ts)
    (s : Str) (mt : Nat) (hle : mt ≤ num_tokens T s) :
    num_tokens T (truncated_string T s mt) = mt := by
  rw [truncated_string, num_tokens, hT, List.length_take]
  exact min_eq_left hle

theorem split_strings_tagged_fst (T : Tokenizer τ) (mt : Nat) :
    ∀ (mr : Nat) (sub : List Str × Str),
      (split_strings_tagged T sub mt mr).map Prod.fst =
        split_strings_from_subsection T sub mt mr := by
  intro mr
  induction mr with
  | zero =>
    intro sub
    rw [split_strings_tagged, split_strings_from_subsection]
    by_cases hfit : num_tokens T (pyJoin parSep (sub.1 ++ [sub.2])) ≤ mt
    · rw [if_pos hfit, if_pos hfit]; rfl
    · rw [if_neg hfit, if_neg hfit]; rfl
  | succ mr ih =>
    intro sub
    rw [split_strings_tagged, split_strings_from_subsection]
    by_cases hfit : num_tokens T (pyJoin parSep (sub.1 ++ [sub.2])) ≤ mt
    · rw [if_pos hfit, if_pos hfit]; rfl
    · rw [if_neg hfit, if_neg hfit]
      cases hfs : findSplit T sub.2 delimiters with
      | none => rfl
      | some p =>
        obtain ⟨d, l, r⟩ := p
        show (split_strings_tagged T (sub.1, l) mt mr ++
            split_strings_tagged T (sub.1, r) mt mr).map Prod.fst = _
        rw [List.map_append, ih, ih]

theorem split_strings_tagged_sound (T : Tokenizer τ)
    (hT : ∀ ts, T.encode (T.decode ts) = ts) (mt : Nat) :
    ∀ (mr : Nat) (sub : List Str × Str) (p : Str × Option Str),
      p ∈ split_strings_tagged T sub mt mr →
      (p.2 = none → num_tokens T p.1 ≤ mt) ∧
      (∀ o, p.2 = some o → mt < num_tokens T o ∧ num_tokens T p.1 = mt) := by
  intro mr
  induction mr with
  | zero =>
    intro sub p hp
    rw [split_strings_tagged] at hp
    by_cases hfit : num_tokens T (pyJoin parSep (sub.1 ++ [sub.2])) ≤ mt
    · rw [if_pos hfit] at hp
      obtain rfl := List.mem_singleton.mp hp
      exact ⟨fun _ => hfit, fun o ho => absurd ho (by simp)⟩
    · rw [if_neg hfit] at hp
      obtain rfl := List.mem_singleton.mp hp
      refine ⟨fun hn => absurd hn (by simp), fun o ho => ?_⟩
      obtain rfl : pyJoin parSep (sub.1 ++ [sub.2]) = o := by simpa using ho
      exact ⟨by omega, num_tokens_truncated T hT _ mt (by omega)⟩
  | succ mr ih =>
    intro sub p hp
    rw [split_strings_tagged] at hp
    by_cases hfit : num_tokens T (pyJoin parSep (sub.1 ++ [sub.2])) ≤ mt
    · rw [if_pos hfit] at hp
      obtain rfl := List.mem_singleton.mp hp
      exact ⟨fun _ => hfit, fun o ho => absurd ho (by simp)⟩
    · rw [if_neg hfit] at hp
      cases hfs : findSplit T sub.2 delimiters with
      | none =>
        rw [hfs] at hp
        obtain rfl := List.mem_singleton.mp hp
        refine ⟨fun hn => absurd hn (by simp), fun o ho => ?_⟩
        obtain rfl : pyJoin parSep (sub.1 ++ [sub.2]) = o := by simpa using ho
        exact ⟨by omega, num_tokens_truncated T hT _ mt (by omega)⟩
      | some q =>
        obtain ⟨d, l, r⟩ := q
        rw [hfs] at hp
        have hp' : p ∈ split_strings_tagged T (sub.1, l) mt mr ++
            split_strings_tagged T (sub.1, r) mt mr := hp
        rcases List.mem_append.mp hp' with h | h
        · exact ih (sub.1, l) p h
        · exact ih (sub.1, r) p h

theorem split_strings_ne_nil (T : Tokenizer τ) (mt : Nat) :
    ∀ (mr : Nat) (sub : List Str × Str),
      split_strings_from_subsection T sub mt mr ≠ [] := by
  intro mr
  induction mr with
  | zero =>
    intro sub
    rw [split_strings_from_subsection]
    by_cases hfit : num_tokens T (pyJoin parSep (sub.1 ++ [sub.2])) ≤ mt
    · rw [if_pos hfit]; simp
    · rw [if_neg hfit]; simp
  | succ mr ih =>
    intro sub
    rw [split_strings_from_subsection]
    by_cases hfit : num_tokens T (pyJoin parSep (sub.1 ++ [sub.2])) ≤ mt
    · rw [if_pos hfit]; simp
    · rw [if_neg hfit]
      cases hfs : findSplit T sub.2 delimiters with
      | none => simp
      | some q =>
        obtain ⟨d, l, r⟩ := q
        show split_strings_from_subsection T (sub.1, l) mt mr ++
            split_strings_from_subsection T (sub.1, r) mt mr ≠ []
        intro hnil
        exact ih (sub.1, l) (List.append_eq_nil.mp hnil).1

theorem interleave_append :
    ∀ (ds₁ ps₁ : List Str), ps₁.length = ds₁.length + 1 →
      ∀ (ps₂ ds₂ : List Str) (d : Str), ps₂ ≠ [] →
        interleave (ps₁ ++ ps₂) (ds₁ ++ d :: ds₂) =
          interleave ps₁ ds₁ ++ d ++ interleave ps₂ ds₂ := by
  intro ds₁
  induction ds₁ with
  | nil =>
    intro ps₁ hlen ps₂ ds₂ d hps₂
    obtain ⟨p, rfl⟩ : ∃ p, ps₁ = [p] := by
      cases ps₁ with
      | nil => simp at hlen
      | cons p t =>
        cases t with
        | nil => exact ⟨p, rfl⟩
        | cons q t' => simp at hlen
    cases ps₂ with
    | nil => exact absurd rfl hps₂
    | cons p₂ t₂ => rfl
  | cons e ds₁' ih =>
    intro ps₁ hlen ps₂ ds₂ d hps₂
    cases ps₁ with
    | nil => simp at hlen
    | cons p ps₁' =>
      have hlen' : ps₁'.length = ds₁'.length + 1 := by
        simp only [List.length_cons] at hlen; omega
      have hps₁' : ps₁' ≠ [] := by
        intro hnil; rw [hnil] at hlen'; simp at hlen'
      show p ++ e ++ interleave (ps₁' ++ ps₂) (ds₁' ++ d :: ds₂) = _
      rw [ih ps₁' hlen' ps₂ ds₂ d hps₂]
      show _ = interleave (p :: ps₁') (e :: ds₁') ++ d ++ interleave ps₂ ds₂
      cases ps₁' with
      | nil => exact absurd rfl hps₁'
      | cons q t =>
        cases ds₁' with
        | nil =>
          simp [interleave, List.append_assoc]
        | cons f fs =>
          simp [interleave, List.append_assoc]

theorem split_parts_interleave (T : Tokenizer τ) (mt : Nat) :
    ∀ (mr : Nat) (titles : List Str) (text : Str) (ps ds : List Str),
      split_parts T titles text mt mr = some (ps, ds) →
      ps.length = ds.length + 1 ∧ interleave ps ds = text ∧ ps ≠ [] := by
  intro mr
  induction mr with
  | zero =>
    intro titles text ps ds h
    rw [split_parts] at h
    by_cases hfit : num_tokens T (pyJoin parSep (titles ++ [text])) ≤ mt
    · rw [if_pos hfit] at h
      simp only [Option.some.injEq, Prod.mk.injEq] at h
      obtain ⟨rfl, rfl⟩ := h
      exact ⟨rfl, rfl, by simp⟩
    · rw [if_neg hfit] at h
      exact absurd h (by simp)
  | succ mr ih =>
    intro titles text ps ds h
    rw [split_parts] at h
    by_cases hfit : num_tokens T (pyJoin parSep (titles ++ [text])) ≤ mt
    · rw [if_pos hfit] at h
      simp only [Option.some.injEq, Prod.mk.injEq] at h
      obtain ⟨rfl, rfl⟩ := h
      exact ⟨rfl, rfl, by simp⟩
    · rw [if_neg hfit] at h
      cases hfs : findSplit T text delimiters with
      | none => rw [hfs] at h; exact absurd h (by simp)
      | some q =>
        obtain ⟨d, l, r⟩ := q
        rw [hfs] at h
        have h' : glueParts d (split_parts T titles l mt mr)
            (split_parts T titles r mt mr) = some (ps, ds) := h
        obtain ⟨hmem, hhalved, hl, hr⟩ := findSplit_sound T text delimiters hfs
        cases hp1 : split_parts T titles l mt mr with
        | none => rw [hp1] at h'; exact absurd h' (by simp [glueParts])
        | some q1 =>
          obtain ⟨ps₁, ds₁⟩ := q1
          cases hp2 : split_parts T titles r mt mr with
          | none => rw [hp1, hp2] at h'; exact absurd h' (by simp [glueParts])
          | some q2 =>
            obtain ⟨ps₂, ds₂⟩ := q2
            rw [hp1, hp2] at h'
            simp only [glueParts, Option.some.injEq, Prod.mk.injEq] at h'
            obtain ⟨rfl, rfl⟩ := h'
            obtain ⟨hlen₁, hint₁, hne₁⟩ := ih titles l ps₁ ds₁ hp1
            obtain ⟨hlen₂, hint₂, hne₂⟩ := ih titles r ps₂ ds₂ hp2
            refine ⟨by simp only [List.length_append, List.length_cons]; omega, ?_, ?_⟩
            · rw [interleave_append ds₁ ps₁ hlen₁ ps₂ ds₂ d hne₂, hint₁, hint₂]
              rcases halved_by_delimiter_append T (delimiters_ne_nil d hmem) hhalved with
                happ | ⟨-, -, hrnil⟩ | ⟨hlnil, -⟩
              · exact happ
              · exact absurd hrnil hr
              · exact absurd hlnil hl
            · intro hnil
              exact hne₁ (List.append_eq_nil.mp hnil).1

theorem split_parts_chunks (T : Tokenizer τ) (mt : Nat) :
    ∀ (mr : Nat) (titles : List Str) (text : Str) (ps ds : List Str),
      split_parts T titles text mt mr = some (ps, ds) →
      split_strings_from_subsection T (titles, text) mt mr =
        ps.map (fun p => pyJoin parSep (titles ++ [p])) := by
  intro mr
  induction mr with
  | zero =>
    intro titles text ps ds h
    rw [split_parts] at h
    rw [split_strings_from_subsection]
    by_cases hfit : num_tokens T (pyJoin parSep (titles ++ [text])) ≤ mt
    · rw [if_pos hfit] at h
      rw [if_pos hfit]
      simp only [Option.some.injEq, Prod.mk.injEq] at h
      obtain ⟨rfl, rfl⟩ := h
      rfl
    · rw [if_neg hfit] at h
      exact absurd h (by simp)
  | succ mr ih =>
    intro titles text ps ds h
    rw [split_parts] at h
    rw [split_strings_from_subsection]
    by_cases hfit : num_tokens T (pyJoin parSep (titles ++ [text])) ≤ mt
    · rw [if_pos hfit] at h
      rw [if_pos hfit]
      simp only [Option.some.injEq, Prod.mk.injEq] at h
      obtain ⟨rfl, rfl⟩ := h
      rfl
    · rw [if_neg hfit] at h
      rw [if_neg hfit]
      cases hfs : findSplit T text delimiters with
      | none => rw [hfs] at h; exact absurd h (by simp)
      | some q =>
        obtain ⟨d, l, r⟩ := q
        rw [hfs] at h
        have h' : glueParts d (split_parts T titles l mt mr)
            (split_parts T titles r mt mr) = some (ps, ds) := h
        cases hp1 : split_parts T titles l mt mr with
        | none => rw [hp1] at h'; exact absurd h' (by simp [glueParts])
        | some q1 =>
          obtain ⟨ps₁, ds₁⟩ := q1
          cases hp2 : split_parts T titles r mt mr with
          | none => rw [hp1, hp2] at h'; exact absurd h' (by simp [glueParts])
          | some q2 =>
            obtain ⟨ps₂, ds₂⟩ := q2
            rw [hp1, hp2] at h'
            simp only [glueParts, Option.some.injEq, Prod.mk.injEq] at h'
            obtain ⟨rfl, rfl⟩ := h'
            show split_strings_from_subsection T (titles, l) mt mr ++
              split_strings_from_subsection T (titles, r) mt mr = _
            rw [List.map_append, ih titles l ps₁ ds₁ hp1, ih titles r ps₂ ds₂ hp2]

/-! ## Section Parser -/

/-- The whitespace characters stripped by Python `str.strip()` (ASCII
range, which is all the repository's input format uses). -/
def pyIsSpace (c : Char) : Bool :=
  c == ' ' || c == '\t' || c == '\n' || c == '\r' || c == '\x0b' || c == '\x0c'

/-- Model of Python `str.strip()`: remove leading and trailing whitespace. -/
def pyStrip (s : Str) : Str :=
  ((s.dropWhile pyIsSpace).reverse.dropWhile pyIsSpace).reverse

/-- Python `line.strip().isnumeric()` restricted to ASCII decimal digits —
the only numeric form the subsequent `int(line)` conversion accepts. -/
def isNumericStr (s : Str) : Bool :=
  !s.isEmpty && s.all (fun c => c.isDigit)

/-- Decimal value of a digit string (the value Python `int` computes once
the marker test has ensured the stripped line is all digits). -/
def digitsToNat (s : Str) : Nat :=
  s.foldl (fun n c => 10 * n + (c.toNat - 48)) 0

/-- The marker test of `split_into_sections`:
`line.strip().isnumeric() and int(line) == expected`. -/
def isMarker (line : Str) (expected : Nat) : Bool :=
  isNumericStr (pyStrip line) && (digitsToNat (pyStrip line) == expected)

/-- Decimal rendering of a natural number (Python `str(n)`), via a
fuel-indexed structural recursion (the fuel strictly exceeds the number). -/
def natToStrAux : Nat → Nat → Str
  | 0, _ => []
  | fuel + 1, n =>
    if n < 10 then [Char.ofNat (48 + n)]
    else natToStrAux fuel (n / 10) ++ [Char.ofNat (48 + n % 10)]

/-- Python `str(n)` for a natural number. -/
def natToStr (n : Nat) : Str := natToStrAux (n + 1) n

/-- Loop state of `split_into_sections`: emitted sections `res`, current
buffer `tmp` (`none` models the initial Python `None`), the `active` flag
and the marker counter `match_tok`. -/
structure SectState where
  res : List (Str × List Str)
  tmp : Option (List Str)
  active : Bool
  match_tok : Nat

def sectInit : SectState := ⟨[], none, false, 0⟩

/-- One iteration of the `for line in file.readlines()` loop of
`split_into_sections`.  `if tmp:` is Python truthiness: only a buffer that
exists and is non-empty is emitted. -/
def sectStep (st : SectState) (line : Str) : SectState :=
  if isMarker line (st.match_tok + 1) then
    { res := st.res ++ (match st.tmp with
        | some (l :: ls) => [(natToStr st.match_tok, l :: ls)]
        | _ => []),
      tmp := some [],
      active := true,
      match_tok := st.match_tok + 1 }
  else if st.active then
    { st with tmp := some (st.tmp.getD [] ++ [line]) }
  else
    st

def sectRun (lines : List Str) : SectState := lines.foldl sectStep sectInit

/-- `split_into_sections` from `src/utils.py`, with the file read modelled
as the list of its lines (each line retaining its trailing newline, as
`readlines` yields them). -/
def split_into_sections (lines : List Str) : List (Str × List Str) :=
  (sectRun lines).res

/-! ## QA Pair Parser -/

/-- `parse_and_join_ans` from `src/utils.py`: drop answer lines that are
exactly a newline, a tab, or an em-space followed by a newline, and
concatenate the remaining lines with no separator. -/
def parse_and_join_ans (ans : List Str) : Str :=
  (ans.filter (fun tok => !([['\n'], ['\t'], [' ', '\n']].contains tok))).flatten

/-- Loop state of `split_into_qa_pairs` inside one section: pending
question lines, pending answer lines, and the units already emitted into
the current section's list. -/
structure QaState where
  questions : List Str
  ans : List Str
  tmp : List (List Str × Str)

/-- One iteration of the `for line in text` loop of `split_into_qa_pairs`:
a `"<Q>"`-prefixed line first closes the pending unit when answer lines
exist, then records the text after the 4-character prefix as a question;
any other line is accumulated as answer text. -/
def qaStep (st : QaState) (line : Str) : QaState :=
  if line.take 3 = ['<', 'Q', '>'] then
    if st.ans.length > 0 then
      { questions := [line.drop 4],
        ans := [],
        tmp := st.tmp ++ [(st.questions, parse_and_join_ans st.ans)] }
    else
      { st with questions := st.questions ++ [line.drop 4] }
  else
    { st with ans := st.ans ++ [line] }

/-- Per-section processing of `split_into_qa_pairs`: run the line loop from
the incoming accumulators, then flush one final unit if answer lines are
pending.  The accumulators are returned as the loop leaves them — the
source does not reset them after the final flush. -/
def qaSection (questions ans : List Str) (lines : List Str) :
    (List Str × List Str) × List (List Str × Str) :=
  match lines.foldl qaStep ⟨questions, ans, []⟩ with
  | ⟨q, a, tmp⟩ =>
    if a.length > 0 then ((q, a), tmp ++ [(q, parse_and_join_ans a)])
    else ((q, a), tmp)

/-- The outer `for section, text in sections` loop of
`split_into_qa_pairs`, threading the accumulators across sections (the
source initialises `questions` and `ans` once, outside this loop). -/
def qaRun (questions ans : List Str) :
    List (Str × List Str) → List (Str × List (List Str × Str))
  | [] => []
  | (sec, text) :: rest =>
    match qaSection questions ans text with
    | ((q, a), tmp) => (sec, tmp) :: qaRun q a rest

/-- `split_into_qa_pairs` from `src/utils.py`. -/
def split_into_qa_pairs (sections : List (Str × List Str)) :
    List (Str × List (List Str × Str)) :=
  qaRun [] [] sections

/-! ## Section Parser lemmas -/

theorem sectRun_append (ls extra : List Str) :
    sectRun (ls ++ extra) = extra.foldl sectStep (sectRun ls) := by
  simp [sectRun, List.foldl_append]

theorem sectStep_no_marker {st : SectState} {line : Str}
    (h : isMarker line (st.match_tok + 1) = false) :
    (sectStep st line).res = st.res ∧ (sectStep st line).match_tok = st.match_tok := by
  rw [sectStep, if_neg (by simp [h])]
  by_cases ha : st.active
  · rw [if_pos ha]; exact ⟨rfl, rfl⟩
  · rw [if_neg ha]; exact ⟨rfl, rfl⟩

theorem sectFold_no_marker :
    ∀ (extra : List Str) (st : SectState),
      (∀ l ∈ extra, isMarker l (st.match_tok + 1) = false) →
      (extra.foldl sectStep st).res = st.res ∧
        (extra.foldl sectStep st).match_tok = st.match_tok := by
  intro extra
  induction extra with
  | nil => intro st _; exact ⟨rfl, rfl⟩
  | cons e rest ih =>
    intro st h
    obtain ⟨hres, htok⟩ := sectStep_no_marker (h e (List.mem_cons_self _ _))
    have hrest : ∀ l ∈ rest, isMarker l ((sectStep st e).match_tok + 1) = false := by
      intro l hl; rw [htok]; exact h l (List.mem_cons_of_mem _ hl)
    obtain ⟨h1, h2⟩ := ih (sectStep st e) hrest
    exact ⟨by rw [List.foldl_cons, h1, hres], by rw [List.foldl_cons, h2, htok]⟩

theorem digitsToNat_append_digit (s : Str) (c : Char) :
    digitsToNat (s ++ [c]) = 10 * digitsToNat s + (c.toNat - 48) := by
  simp [digitsToNat, List.foldl_append]

theorem digitsToNat_natToStrAux :
    ∀ (fuel n : Nat), n < fuel → digitsToNat (natToStrAux fuel n) = n := by
  intro fuel
  induction fuel with
  | zero => intro n h; omega
  | succ f ih =>
    intro n h
    rw [natToStrAux]
    by_cases h10 : n < 10
    · rw [if_pos h10]
      have hc : (Char.ofNat (48 + n)).toNat = 48 + n := by
        interval_cases n <;> rfl
      simp [digitsToNat, hc]
    · rw [if_neg h10, digitsToNat_append_digit, ih (n / 10) (by omega)]
      have hm : n % 10 < 10 := Nat.mod_lt _ (by omega)
      have hc : (Char.ofNat (48 + n % 10)).toNat = 48 + n % 10 := by
        set m := n % 10 with hmm
        clear hmm
        interval_cases m <;> rfl
      rw [hc]
      omega

theorem digitsToNat_natToStr (n : Nat) : digitsToNat (natToStr n) = n :=
  digitsToNat_natToStrAux (n + 1) n (by omega)

theorem natToStr_injective : Function.Injective natToStr := by
  intro a b h
  have := congrArg digitsToNat h
  rwa [digitsToNat_natToStr, digitsToNat_natToStr] at this

/-- Correctness invariant of the section-parser loop: the ids emitted so far
are the decimal renderings of a strictly increasing list of integers, all
below the current marker counter. -/
def SectInv (st : SectState) : Prop :=
  ∃ ns : List Nat, List.Pairwise (· < ·) ns ∧
    st.res.map Prod.fst = ns.map natToStr ∧ ∀ n ∈ ns, n < st.match_tok

theorem sectStep_inv {st : SectState} (line : Str) (h : SectInv st) :
    SectInv (sectStep st line) := by
  obtain ⟨ns, hpw, hids, hbound⟩ := h
  rw [sectStep]
  by_cases hm : isMarker line (st.match_tok + 1)
  · rw [if_pos hm]
    cases htmp : st.tmp with
    | none =>
      refine ⟨ns, hpw, ?_, fun n hn => ?_⟩
      · show (st.res ++ []).map Prod.fst = ns.map natToStr
        simpa using hids
      · show n < st.match_tok + 1
        have := hbound n hn
        omega
    | some buf =>
      cases buf with
      | nil =>
        refine ⟨ns, hpw, ?_, fun n hn => ?_⟩
        · show (st.res ++ []).map Prod.fst = ns.map natToStr
          simpa using hids
        · show n < st.match_tok + 1
          have := hbound n hn
          omega
      | cons l ls =>
        refine ⟨ns ++ [st.match_tok], ?_, ?_, ?_⟩
        · rw [List.pairwise_append]
          exact ⟨hpw, List.pairwise_singleton _ _,
            fun a ha b hb => by rw [List.mem_singleton.mp hb]; exact hbound a ha⟩
        · show (st.res ++ [(natToStr st.match_tok, l :: ls)]).map Prod.fst =
            (ns ++ [st.match_tok]).map natToStr
          rw [List.map_append, List.map_append, hids]
          rfl
        · intro n hn
          show n < st.match_tok + 1
          rcases List.mem_append.mp hn with h | h
          · have := hbound n h; omega
          · rw [List.mem_singleton.mp h]
            exact Nat.lt_succ_self _
  · rw [if_neg hm]
    by_cases ha : st.active
    · rw [if_pos ha]; exact ⟨ns, hpw, hids, hbound⟩
    · rw [if_neg ha]; exact ⟨ns, hpw, hids, hbound⟩

theorem sectRun_inv (lines : List Str) : SectInv (sectRun lines) := by
  rw [sectRun]
  have : SectInv sectInit := ⟨[], List.Pairwise.nil, rfl, by simp⟩
  generalize sectInit = st at this ⊢
  induction lines generalizing st with
  | nil => exact this
  | cons l rest ih => exact ih (sectStep st l) (sectStep_inv l this)

/-! ## QA Pair Parser lemmas -/

/-- All raw lines of a list of sections, in order. -/
def allLines (secs : List (Str × List Str)) : List Str :=
  (secs.map Prod.snd).flatten

/-- A question string derivable from one of the lines of `S` by stripping
the 4-character question marker. -/
def QFrom (S : List Str) (q : Str) : Prop := ∃ l ∈ S, q = l.drop 4

/-- An answer string derivable from lines of `S` via the join filter. -/
def AFrom (S : List Str) (a : Str) : Prop :=
  ∃ als : List Str, (∀ l ∈ als, l ∈ S) ∧ a = parse_and_join_ans als

/-- A QA unit built exclusively from lines of `S`. -/
def UnitFrom (S : List Str) (u : List Str × Str) : Prop :=
  (∀ q ∈ u.1, QFrom S q) ∧ AFrom S u.2

/-- Accumulators built exclusively from lines of `S`. -/
def AccFrom (S : List Str) (qs as : List Str) : Prop :=
  (∀ q ∈ qs, QFrom S q) ∧ ∀ l ∈ as, l ∈ S

theorem QFrom_mono {S S' : List Str} (hsub : ∀ x ∈ S, x ∈ S') {q : Str}
    (h : QFrom S q) : QFrom S' q := by
  obtain ⟨l, hl, rfl⟩ := h
  exact ⟨l, hsub l hl, rfl⟩

theorem AFrom_mono {S S' : List Str} (hsub : ∀ x ∈ S, x ∈ S') {a : Str}
    (h : AFrom S a) : AFrom S' a := by
  obtain ⟨als, hals, rfl⟩ := h
  exact ⟨als, fun l hl => hsub l (hals l hl), rfl⟩

theorem UnitFrom_mono {S S' : List Str} (hsub : ∀ x ∈ S, x ∈ S')
    {u : List Str × Str} (h : UnitFrom S u) : UnitFrom S' u :=
  ⟨fun q hq => QFrom_mono hsub (h.1 q hq), AFrom_mono hsub h.2⟩

theorem AccFrom_mono {S S' : List Str} (hsub : ∀ x ∈ S, x ∈ S')
    {qs as : List Str} (h : AccFrom S qs as) : AccFrom S' qs as :=
  ⟨fun q hq => QFrom_mono hsub (h.1 q hq), fun l hl => hsub l (h.2 l hl)⟩

theorem qaStep_from {S : List Str} {st : QaState} {line : Str}
    (hacc : AccFrom S st.questions st.ans) (htmp : ∀ u ∈ st.tmp, UnitFrom S u)
    (hline : line ∈ S) :
    AccFrom S (qaStep st line).questions (qaStep st line).ans ∧
      ∀ u ∈ (qaStep st line).tmp, UnitFrom S u := by
  rw [qaStep]
  by_cases hq : line.take 3 = ['<', 'Q', '>']
  · rw [if_pos hq]
    by_cases hans : st.ans.length > 0
    · rw [if_pos hans]
      refine ⟨⟨?_, ?_⟩, ?_⟩
      · intro q hq'
        obtain rfl := List.mem_singleton.mp hq'
        exact ⟨line, hline, rfl⟩
      · intro l hl
        exact absurd hl (List.not_mem_nil l)
      · intro u hu
        rcases List.mem_append.mp hu with h | h
        · exact htmp u h
        · obtain rfl := List.mem_singleton.mp h
          exact ⟨hacc.1, st.ans, hacc.2, rfl⟩
    · rw [if_neg hans]
      refine ⟨⟨?_, hacc.2⟩, htmp⟩
      intro q hq'
      rcases List.mem_append.mp hq' with h | h
      · exact hacc.1 q h
      · obtain rfl := List.mem_singleton.mp h
        exact ⟨line, hline, rfl⟩
  · rw [if_neg hq]
    refine ⟨⟨hacc.1, ?_⟩, htmp⟩
    intro l hl
    rcases List.mem_append.mp hl with h | h
    · exact hacc.2 l h
    · obtain rfl := List.mem_singleton.mp h
      exact hline

theorem qaFold_from {S : List Str} :
    ∀ (lines : List Str) (st : QaState), (∀ l ∈ lines, l ∈ S) →
      AccFrom S st.questions st.ans → (∀ u ∈ st.tmp, UnitFrom S u) →
      AccFrom S (lines.foldl qaStep st).questions (lines.foldl qaStep st).ans ∧
        ∀ u ∈ (lines.foldl qaStep st).tmp, UnitFrom S u := by
  intro lines
  induction lines with
  | nil => intro st _ hacc htmp; exact ⟨hacc, htmp⟩
  | cons l rest ih =>
    intro st hl hacc htmp
    obtain ⟨hacc', htmp'⟩ := qaStep_from hacc htmp (hl l (List.mem_cons_self _ _))
    exact ih (qaStep st l) (fun x hx => hl x (List.mem_cons_of_mem _ hx)) hacc' htmp'

theorem qaSection_from {S : List Str} (qs as text : List Str)
    (hlines : ∀ l ∈ text, l ∈ S) (hacc : AccFrom S qs as) :
    ∀ q' a' tmp, qaSection qs as text = ((q', a'), tmp) →
      AccFrom S q' a' ∧ ∀ u ∈ tmp, UnitFrom S u := by
  intro q' a' tmp h
  rw [qaSection] at h
  obtain ⟨hacc', htmp'⟩ := qaFold_from text ⟨qs, as, []⟩ hlines hacc
    (fun u hu => absurd hu (List.not_mem_nil u))
  cases hst : text.foldl qaStep ⟨qs, as, []⟩ with
  | mk q a tmp0 =>
    rw [hst] at h hacc' htmp'
    have h' : (if a.length > 0 then ((q, a), tmp0 ++ [(q, parse_and_join_ans a)])
        else ((q, a), tmp0)) = ((q', a'), tmp) := h
    by_cases ha : a.length > 0
    · rw [if_pos ha] at h'
      simp only [Prod.mk.injEq] at h'
      obtain ⟨⟨rfl, rfl⟩, rfl⟩ := h'
      refine ⟨hacc', fun u hu => ?_⟩
      rcases List.mem_append.mp hu with h | h
      · exact htmp' u h
      · obtain rfl := List.mem_singleton.mp h
        exact ⟨hacc'.1, a, hacc'.2, rfl⟩
    · rw [if_neg ha] at h'
      simp only [Prod.mk.injEq] at h'
      obtain ⟨⟨rfl, rfl⟩, rfl⟩ := h'
      exact ⟨hacc', htmp'⟩

theorem qaRun_from :
    ∀ (sections : List (Str × List Str)) (qs as : List Str) (S₀ : List Str),
      AccFrom S₀ qs as →
      ∀ (i : Nat) (sid : Str) (units : List (List Str × Str)),
        (qaRun qs as sections)[i]? = some (sid, units) →
        ∀ u ∈ units, UnitFrom (S₀ ++ allLines (sections.take (i + 1))) u := by
  intro sections
  induction sections with
  | nil =>
    intro qs as S₀ _ i sid units h
    rw [qaRun] at h
    simp at h
  | cons sec rest ih =>
    intro qs as S₀ hacc i sid units h
    obtain ⟨sid0, text⟩ := sec
    cases hqa : qaSection qs as text with
    | mk p tmp =>
      obtain ⟨q', a'⟩ := p
      have hrun : qaRun qs as ((sid0, text) :: rest) = (sid0, tmp) :: qaRun q' a' rest := by
        rw [qaRun, hqa]
      rw [hrun] at h
      have hsub0 : ∀ x ∈ S₀, x ∈ S₀ ++ text :=
        fun x hx => List.mem_append.mpr (Or.inl hx)
      have hlines : ∀ l ∈ text, l ∈ S₀ ++ text :=
        fun l hl => List.mem_append.mpr (Or.inr hl)
      obtain ⟨haccOut, htmpOut⟩ :=
        qaSection_from qs as text hlines (AccFrom_mono hsub0 hacc) q' a' tmp hqa
      cases i with
      | zero =>
        rw [List.getElem?_cons_zero] at h
        simp only [Option.some.injEq, Prod.mk.injEq] at h
        obtain ⟨rfl, rfl⟩ := h
        intro u hu
        refine UnitFrom_mono ?_ (htmpOut u hu)
        intro x hx
        simp only [List.take_succ_cons, List.take_zero, allLines, List.map_cons,
          List.map_nil, List.flatten_cons, List.flatten_nil, List.append_nil,
          List.mem_append] at hx ⊢
        exact hx
      | succ i =>
        rw [List.getElem?_cons_succ] at h
        intro u hu
        have := ih q' a' (S₀ ++ text) haccOut i sid units h u hu
        refine UnitFrom_mono ?_ this
        intro x hx
        simp only [allLines, List.take_succ_cons, List.map_cons, List.flatten_cons,
          List.mem_append] at hx ⊢
        tauto

/-! ## Claim theorems -/

/-- C1: for every subsection, every `max_tokens ≥ 1` and every
`max_recursion`, every chunk returned by `split_strings_from_subsection`
either fits the budget (`num_tokens ≤ max_tokens`, the untagged chunks) or
is a truncation-fallback chunk, produced by `truncated_string` from an
original whose token count exceeded `max_tokens`, and whose own token count
is exactly `max_tokens`.  The tokenizer is assumed exact (re-encoding a
decoded token list is the identity), as `truncated_string`'s round trip
presupposes. -/
theorem C1_token_ceiling {τ : Type} (T : Tokenizer τ)
    (hT : ∀ ts, T.encode (T.decode ts) = ts)
    (subsection : List Str × Str) (max_tokens max_recursion : Nat)
    (hmt : 1 ≤ max_tokens) :
    (split_strings_tagged T subsection max_tokens max_recursion).map Prod.fst =
      split_strings_from_subsection T subsection max_tokens max_recursion ∧
    ∀ p ∈ split_strings_tagged T subsection max_tokens max_recursion,
      (p.2 = none → num_tokens T p.1 ≤ max_tokens) ∧
      (∀ orig, p.2 = some orig →
        max_tokens < num_tokens T orig ∧ num_tokens T p.1 = max_tokens) :=
  ⟨split_strings_tagged_fst T max_tokens max_recursion subsection,
    fun p hp => split_strings_tagged_sound T hT max_tokens max_recursion subsection p hp⟩

/-- C1 witness: the character tokenizer is exact, and on the subsection
`([], "ab")` with `max_tokens = 1` and `max_recursion = 0` the theorem's
conclusion holds. -/
theorem C1_token_ceiling_witness :
    (∀ ts, charTokenizer.encode (charTokenizer.decode ts) = ts) ∧ 1 ≤ 1 ∧
    ((split_strings_tagged charTokenizer ([], "ab".data) 1 0).map Prod.fst =
        split_strings_from_subsection charTokenizer ([], "ab".data) 1 0 ∧
      ∀ p ∈ split_strings_tagged charTokenizer ([], "ab".data) 1 0,
        (p.2 = none → num_tokens charTokenizer p.1 ≤ 1) ∧
        (∀ orig, p.2 = some orig →
          1 < num_tokens charTokenizer orig ∧ num_tokens charTokenizer p.1 = 1)) :=
  ⟨fun _ => rfl, by decide,
    C1_token_ceiling charTokenizer (fun _ => rfl) ([], "ab".data) 1 0 (by decide)⟩

/-- C2 counterexample: on the example input the Section Parser does NOT
yield two sections — the input ends without a further marker, so the final
buffer (section "2") is never flushed. -/
theorem C2_example_end_to_end_counterexample :
    ¬ (split_into_sections ["1\n".data, "<Q> What is 2+2?\n".data, "4\n".data,
        "2\n".data, "<Q> What is the capital of France?\n".data, "Paris\n".data] =
      [("1".data, ["<Q> What is 2+2?\n".data, "4\n".data]),
        ("2".data, ["<Q> What is the capital of France?\n".data, "Paris\n".data])]) := by
  decide

/-- C2 amended: on the example input the Section Parser yields exactly one
section, `("1", ["<Q> What is 2+2?\n", "4\n"])` (section "2" is lost to the
missing final flush), and the QA Pair Parser yields for section "1" exactly
`[(["What is 2+2?\n"], "4\n")]`. -/
theorem C2_example_end_to_end_amended :
    split_into_sections ["1\n".data, "<Q> What is 2+2?\n".data, "4\n".data,
        "2\n".data, "<Q> What is the capital of France?\n".data, "Paris\n".data] =
      [("1".data, ["<Q> What is 2+2?\n".data, "4\n".data])] ∧
    split_into_qa_pairs (split_into_sections ["1\n".data, "<Q> What is 2+2?\n".data,
        "4\n".data, "2\n".data, "<Q> What is the capital of France?\n".data,
        "Paris\n".data]) =
      [("1".data, [(["What is 2+2?\n".data], "4\n".data)])] := by
  constructor
  · decide
  · decide

/-- C3: the Section Parser performs no final flush — appending to the input
any suffix of lines none of which is an accepted next marker leaves the
emitted sections unchanged, so trailing body lines after the last accepted
marker appear in no emitted section. -/
theorem C3_no_final_flush (ls extra : List Str)
    (h : ∀ l ∈ extra, isMarker l ((sectRun ls).match_tok + 1) = false) :
    split_into_sections (ls ++ extra) = split_into_sections ls := by
  rw [split_into_sections, split_into_sections, sectRun_append]
  exact (sectFold_no_marker extra (sectRun ls) h).1

/-- C3 witness: trailing line `"trailing\n"` after the input
`["1\n", "x\n", "2\n"]` is not a marker and changes nothing. -/
theorem C3_no_final_flush_witness :
    (∀ l ∈ (["trailing\n".data] : List Str),
      isMarker l ((sectRun ["1\n".data, "x\n".data, "2\n".data]).match_tok + 1) = false) ∧
    split_into_sections (["1\n".data, "x\n".data, "2\n".data] ++ ["trailing\n".data]) =
      split_into_sections ["1\n".data, "x\n".data, "2\n".data] :=
  ⟨by decide, C3_no_final_flush ["1\n".data, "x\n".data, "2\n".data]
    ["trailing\n".data] (by decide)⟩

/-- C4 counterexample: the QA Pair Parser does NOT begin each section with
empty accumulators — its output differs from processing every section from
empty accumulators: the un-reset answer buffer of section "1" leaks a unit
into section "2"'s list. -/
theorem C4_qa_isolation_counterexample :
    ¬ (split_into_qa_pairs [("1".data, ["<Q> q1\n".data, "a1\n".data]),
        ("2".data, ["<Q> q2\n".data, "a2\n".data])] =
      ([("1".data, ["<Q> q1\n".data, "a1\n".data]),
        ("2".data, ["<Q> q2\n".data, "a2\n".data])].map
        (fun s => (s.1, (qaSection [] [] s.2).2)))) := by
  decide

/-- C4 amended: the accumulators persist across section boundaries (only
the very first section is guaranteed to start from empty ones), so a unit
emitted under the `i`-th section is built from lines of that section or of
EARLIER sections — every question is some already-read line with its
4-character marker stripped, and every answer is the join-filter of
already-read lines. -/
theorem C4_qa_provenance (sections : List (Str × List Str)) (i : Nat)
    (sid : Str) (units : List (List Str × Str))
    (h : (split_into_qa_pairs sections)[i]? = some (sid, units)) :
    ∀ u ∈ units,
      (∀ q ∈ u.1, ∃ l ∈ allLines (sections.take (i + 1)), q = l.drop 4) ∧
      ∃ als : List Str, (∀ l ∈ als, l ∈ allLines (sections.take (i + 1))) ∧
        u.2 = parse_and_join_ans als := by
  intro u hu
  have hfrom := qaRun_from sections [] [] []
    ⟨fun q hq => absurd hq (List.not_mem_nil q),
      fun l hl => absurd hl (List.not_mem_nil l)⟩ i sid units h u hu
  rw [List.nil_append] at hfrom
  exact ⟨hfrom.1, hfrom.2⟩

/-- C4 witness: the provenance property at the leaking example, section
index 1. -/
theorem C4_qa_provenance_witness :
    ((split_into_qa_pairs [("1".data, ["<Q> q1\n".data, "a1\n".data]),
        ("2".data, ["<Q> q2\n".data, "a2\n".data])])[1]? =
      some ("2".data, [(["q1\n".data], "a1\n".data), (["q2\n".data], "a2\n".data)])) ∧
    (∀ u ∈ [(["q1\n".data], "a1\n".data), (["q2\n".data], "a2\n".data)],
      (∀ q ∈ u.1, ∃ l ∈ allLines ([("1".data, ["<Q> q1\n".data, "a1\n".data]),
          ("2".data, ["<Q> q2\n".data, "a2\n".data])].take (1 + 1)), q = l.drop 4) ∧
      ∃ als : List Str, (∀ l ∈ als, l ∈ allLines ([("1".data,
          ["<Q> q1\n".data, "a1\n".data]),
          ("2".data, ["<Q> q2\n".data, "a2\n".data])].take (1 + 1))) ∧
        u.2 = parse_and_join_ans als) :=
  ⟨by decide,
    C4_qa_provenance [("1".data, ["<Q> q1\n".data, "a1\n".data]),
      ("2".data, ["<Q> q2\n".data, "a2\n".data])] 1 ("2".data)
      [(["q1\n".data], "a1\n".data), (["q2\n".data], "a2\n".data)] (by decide)⟩

/-- C5: `halved_by_delimiter` returns `(string, "")` when splitting yields
exactly one part, the two parts unchanged when it yields exactly two, and
otherwise splits at the index where the left-to-right scan stops: the first
index whose distance between the prefix token count and `total // 2` is at
least the best (minimum) distance seen so far, or the last index if every
prefix strictly improves; left is the parts before that index and right the
parts from it onward, joined by the delimiter. -/
theorem C5_halved_by_delimiter_greedy {τ : Type} (T : Tokenizer τ)
    (string delimiter : Str) (hd : delimiter ≠ []) :
    ((pySplit delimiter string).length = 1 →
      halved_by_delimiter T string delimiter = (string, [])) ∧
    (∀ a b, pySplit delimiter string = [a, b] →
      halved_by_delimiter T string delimiter = (a, b)) ∧
    (3 ≤ (pySplit delimiter string).length →
      ∃ i, i < (pySplit delimiter string).length ∧
        (∀ j, j < i →
          Nat.dist (num_tokens T string / 2)
              (num_tokens T (pyJoin delimiter ((pySplit delimiter string).take (j + 1)))) <
            ((List.range j).map (fun m => Nat.dist (num_tokens T string / 2)
              (num_tokens T (pyJoin delimiter
                ((pySplit delimiter string).take (m + 1)))))).foldl
              min (num_tokens T string / 2)) ∧
        (((List.range i).map (fun m => Nat.dist (num_tokens T string / 2)
            (num_tokens T (pyJoin delimiter
              ((pySplit delimiter string).take (m + 1)))))).foldl
            min (num_tokens T string / 2) ≤
          Nat.dist (num_tokens T string / 2)
            (num_tokens T (pyJoin delimiter ((pySplit delimiter string).take (i + 1)))) ∨
          i = (pySplit delimiter string).length - 1) ∧
        halved_by_delimiter T string delimiter =
          (pyJoin delimiter ((pySplit delimiter string).take i),
            pyJoin delimiter ((pySplit delimiter string).drop i))) := by
  refine ⟨?_, ?_, ?_⟩
  · intro h1
    rw [halved_by_delimiter, if_pos h1]
  · intro a b hab
    rw [halved_by_delimiter, if_neg (by rw [hab]; simp), if_pos (by rw [hab]; rfl), hab]
    rfl
  · intro h3
    have h1 : ¬(pySplit delimiter string).length = 1 := by omega
    have h2 : ¬(pySplit delimiter string).length = 2 := by omega
    obtain ⟨-, hklt, hall, hlast⟩ := scanStop_spec
      (halvedDiffs T delimiter (pySplit delimiter string) (num_tokens T string / 2))
      (num_tokens T string / 2) 0
      (halvedDiffs_ne_nil T delimiter string (num_tokens T string / 2))
    rw [halvedDiffs_length] at hklt
    simp only [Nat.sub_zero] at hklt hall hlast
    refine ⟨scanIdx T string delimiter, by simpa [scanIdx] using hklt, ?_, ?_, ?_⟩
    · intro j hj
      have hjk : j < scanStop
          (halvedDiffs T delimiter (pySplit delimiter string) (num_tokens T string / 2))
          (num_tokens T string / 2) 0 := by simpa [scanIdx] using hj
      have hj' : j < (pySplit delimiter string).length := lt_trans hjk hklt
      have hthis := hall j hjk
      rwa [halvedDiffs_getD T delimiter _ _ hj',
        bestBefore_halvedDiffs T delimiter _ _ (le_of_lt hj')] at hthis
    · rcases hlast with hstop | hlen
      · refine Or.inl ?_
        simp only [scanIdx]
        rwa [halvedDiffs_getD T delimiter _ _ hklt,
          bestBefore_halvedDiffs T delimiter _ _ (le_of_lt hklt)] at hstop
      · refine Or.inr ?_
        rw [halvedDiffs_length] at hlen
        simpa [scanIdx] using hlen
    · rw [halved_by_delimiter, if_neg h1, if_neg h2]

/-- C5 witness: on `"a\nbb\nc"` with delimiter `"\n"` (three parts) the
characterization holds. -/
theorem C5_halved_by_delimiter_greedy_witness :
    ("\n".data ≠ ([] : Str)) ∧
    (((pySplit ("\n".data) ("a\nbb\nc".data)).length = 1 →
      halved_by_delimiter charTokenizer ("a\nbb\nc".data) ("\n".data) =
        ("a\nbb\nc".data, [])) ∧
    (∀ a b, pySplit ("\n".data) ("a\nbb\nc".data) = [a, b] →
      halved_by_delimiter charTokenizer ("a\nbb\nc".data) ("\n".data) = (a, b)) ∧
    (3 ≤ (pySplit ("\n".data) ("a\nbb\nc".data)).length →
      ∃ i, i < (pySplit ("\n".data) ("a\nbb\nc".data)).length ∧
        (∀ j, j < i →
          Nat.dist (num_tokens charTokenizer ("a\nbb\nc".data) / 2)
              (num_tokens charTokenizer (pyJoin ("\n".data)
                ((pySplit ("\n".data) ("a\nbb\nc".data)).take (j + 1)))) <
            ((List.range j).map (fun m =>
              Nat.dist (num_tokens charTokenizer ("a\nbb\nc".data) / 2)
                (num_tokens charTokenizer (pyJoin ("\n".data)
                  ((pySplit ("\n".data) ("a\nbb\nc".data)).take (m + 1)))))).foldl
              min (num_tokens charTokenizer ("a\nbb\nc".data) / 2)) ∧
        (((List.range i).map (fun m =>
            Nat.dist (num_tokens charTokenizer ("a\nbb\nc".data) / 2)
              (num_tokens charTokenizer (pyJoin ("\n".data)
                ((pySplit ("\n".data) ("a\nbb\nc".data)).take (m + 1)))))).foldl
            min (num_tokens charTokenizer ("a\nbb\nc".data) / 2) ≤
          Nat.dist (num_tokens charTokenizer ("a\nbb\nc".data) / 2)
            (num_tokens charTokenizer (pyJoin ("\n".data)
              ((pySplit ("\n".data) ("a\nbb\nc".data)).take (i + 1)))) ∨
          i = (pySplit ("\n".data) ("a\nbb\nc".data)).length - 1) ∧
        halved_by_delimiter charTokenizer ("a\nbb\nc".data) ("\n".data) =
          (pyJoin ("\n".data) ((pySplit ("\n".data) ("a\nbb\nc".data)).take i),
            pyJoin ("\n".data) ((pySplit ("\n".data) ("a\nbb\nc".data)).drop i)))) :=
  ⟨by decide, C5_halved_by_delimiter_greedy charTokenizer ("a\nbb\nc".data)
    ("\n".data) (by decide)⟩

/-- C6 counterexample: the emitted section ids do not always form a
contiguous sequence starting at 1 — on `["1\n","2\n","x\n","3\n"]` the only
emitted id is "2" (section 1's empty buffer is skipped at emission while
the counter still advances). -/
theorem C6_contiguity_counterexample :
    ¬ ((split_into_sections ["1\n".data, "2\n".data, "x\n".data, "3\n".data]).map
        Prod.fst =
      (List.range ((split_into_sections ["1\n".data, "2\n".data, "x\n".data,
        "3\n".data]).map Prod.fst).length).map (fun k => natToStr (k + 1))) := by
  decide

/-- C6 amended: the emitted section ids are the decimal renderings of a
strictly increasing list of integers (in marker order, hence no id is ever
emitted twice), and an all-digit line whose value is not exactly one more
than the marker counter opens no section: it is appended to the current
buffer when a section is active and leaves the state unchanged otherwise.
Contiguity from 1 fails in general because an empty buffer is skipped at
emission while the counter still advances. -/
theorem C6_section_ids_amended (lines : List Str) :
    (∃ ns : List Nat, List.Pairwise (· < ·) ns ∧
      (split_into_sections lines).map Prod.fst = ns.map natToStr) ∧
    ((split_into_sections lines).map Prod.fst).Nodup ∧
    (∀ (st : SectState) (l : Str), isNumericStr (pyStrip l) = true →
      digitsToNat (pyStrip l) ≠ st.match_tok + 1 →
      (st.active = true → sectStep st l = { st with tmp := some (st.tmp.getD [] ++ [l]) }) ∧
      (st.active = false → sectStep st l = st)) := by
  obtain ⟨ns, hpw, hids, hbound⟩ := sectRun_inv lines
  refine ⟨⟨ns, hpw, hids⟩, ?_, ?_⟩
  · show ((sectRun lines).res.map Prod.fst).Nodup
    rw [hids]
    exact List.Nodup.map natToStr_injective (hpw.imp (fun h => Nat.ne_of_lt h))
  · intro st l hnum hne
    have hm : isMarker l (st.match_tok + 1) = false := by
      rw [isMarker, hnum]
      simp only [Bool.true_and]
      exact beq_eq_false_iff_ne.mpr hne
    constructor
    · intro ha
      rw [sectStep, if_neg (by simp [hm]), if_pos ha]
    · intro ha
      rw [sectStep, if_neg (by simp [hm]), if_neg (by simp [ha])]

/-- C6 witness: the amended property instantiated at
`["1\n","2\n","x\n","3\n"]`. -/
theorem C6_section_ids_amended_witness :
    (∃ ns : List Nat, List.Pairwise (· < ·) ns ∧
      (split_into_sections ["1\n".data, "2\n".data, "x\n".data, "3\n".data]).map
        Prod.fst = ns.map natToStr) ∧
    ((split_into_sections ["1\n".data, "2\n".data, "x\n".data, "3\n".data]).map
      Prod.fst).Nodup ∧
    (∀ (st : SectState) (l : Str), isNumericStr (pyStrip l) = true →
      digitsToNat (pyStrip l) ≠ st.match_tok + 1 →
      (st.active = true → sectStep st l = { st with tmp := some (st.tmp.getD [] ++ [l]) }) ∧
      (st.active = false → sectStep st l = st)) :=
  C6_section_ids_amended ["1\n".data, "2\n".data, "x\n".data, "3\n".data]

/-- C7: `parse_and_join_ans` drops exactly the lines equal to a single
newline, a single tab, or an em-space followed by a newline, concatenates
the rest in order with no separator, and on the documented example yields
`"Parisisthe capital"`. -/
theorem C7_parse_and_join_filter :
    (∀ ans : List Str, parse_and_join_ans ans =
      (ans.filter (fun l =>
        decide (¬(l = ['\n'] ∨ l = ['\t'] ∨ l = [' ', '\n'])))).flatten) ∧
    parse_and_join_ans ["Paris".data, "\n".data, "is".data, "\t".data,
      "the capital".data] = "Parisisthe capital".data := by
  constructor
  · intro ans
    rw [parse_and_join_ans]
    congr 1
    apply List.filter_congr
    intro x _
    simp only [List.contains, List.elem_eq_mem, decide_not, List.mem_cons,
      List.mem_singleton, List.not_mem_nil, or_false]
  · decide

/-- C8: whenever the instrumented `split_parts` succeeds — exactly when no
call hit the recursion floor and no truncation occurred — the chunks
returned by `split_strings_from_subsection` are the recorded body fragments
each prefixed with the titles, and interleaving those fragments with the
delimiters consumed at the splits reconstructs the original body text
exactly. -/
theorem C8_concatenation_coverage {τ : Type} (T : Tokenizer τ)
    (titles : List Str) (text : Str) (max_tokens max_recursion : Nat)
    (ps ds : List Str)
    (h : split_parts T titles text max_tokens max_recursion = some (ps, ds)) :
    split_strings_from_subsection T (titles, text) max_tokens max_recursion =
      ps.map (fun p => pyJoin parSep (titles ++ [p])) ∧
    interleave ps ds = text ∧ ps.length = ds.length + 1 :=
  ⟨split_parts_chunks T max_tokens max_recursion titles text ps ds h,
    (split_parts_interleave T max_tokens max_recursion titles text ps ds h).2.1,
    (split_parts_interleave T max_tokens max_recursion titles text ps ds h).1⟩

/-- C8 witness: on `([], "ab\ncd")` with budget 4 and recursion 1 the body
splits on `"\n"` into `"ab"` and `"cd"`, and their interleaving restores
the original. -/
theorem C8_concatenation_coverage_witness :
    split_parts charTokenizer [] ("ab\ncd".data) 4 1 =
      some (["ab".data, "cd".data], ["\n".data]) ∧
    (split_strings_from_subsection charTokenizer ([], "ab\ncd".data) 4 1 =
        (["ab".data, "cd".data]).map (fun p => pyJoin parSep ([] ++ [p])) ∧
      interleave ["ab".data, "cd".data] ["\n".data] = "ab\ncd".data ∧
      (["ab".data, "cd".data] : List Str).length = (["\n".data] : List Str).length + 1) :=
  ⟨by decide, C8_concatenation_coverage charTokenizer [] ("ab\ncd".data) 4 1
    ["ab".data, "cd".data] ["\n".data] (by decide)⟩

/-- C9: when the delimiter occurs in the string, the two halves returned by
`halved_by_delimiter` satisfy `left ++ delimiter ++ right = string`, except
when the scan stops at the very first prefix, in which case the pair is
`("", string)`. -/
theorem C9_halved_recombination {τ : Type} (T : Tokenizer τ)
    (string delimiter : Str) (hd : delimiter ≠ [])
    (hocc : splitFirst delimiter string ≠ none) {l r : Str}
    (h : halved_by_delimiter T string delimiter = (l, r)) :
    l ++ delimiter ++ r = string ∨ (l = [] ∧ r = string) := by
  rcases halved_by_delimiter_append T hd h with happ | ⟨hlen, -, -⟩ | h3
  · exact Or.inl happ
  · have := pySplit_length_ge_two hd hocc
    omega
  · exact Or.inr h3

/-- C9 witness: `"a\nb"` split on `"\n"` recombines. -/
theorem C9_halved_recombination_witness :
    ("\n".data ≠ ([] : Str)) ∧ splitFirst ("\n".data) ("a\nb".data) ≠ none ∧
    halved_by_delimiter charTokenizer ("a\nb".data) ("\n".data) = ("a".data, "b".data) ∧
    ("a".data ++ "\n".data ++ "b".data = "a\nb".data ∨
      ("a".data = ([] : Str) ∧ "b".data = "a\nb".data)) :=
  ⟨by decide, by decide, by decide,
    C9_halved_recombination charTokenizer ("a\nb".data) ("\n".data)
      (by decide) (by decide) (by decide)⟩

/-- C10: `split_strings_from_subsection` is total (it is defined by
structural recursion on `max_recursion`, every recursive call receiving
`max_recursion - 1`) and always returns at least one string: the base case,
the recursion-floor case and the no-usable-split fallback each return a
singleton, and the recursive case concatenates two non-empty results. -/
theorem C10_chunker_total_nonempty {τ : Type} (T : Tokenizer τ)
    (subsection : List Str × Str) (max_tokens max_recursion : Nat) :
    split_strings_from_subsection T subsection max_tokens max_recursion ≠ [] :=
  split_strings_ne_nil T max_tokens max_recursion subsection

end GptEmbeddings
